import Mathlib

/-!
Verification of the mentor–fellow matching core
(`src/core/mentor/matcher.py`, `src/core/mentor/models.py`,
`src/core/fellow/models.py`) of the SNU Connectome Fellows Program
repository.

The Python code is shallowly embedded: pydantic models become structures
(only the fields the matcher reads), Python floats become `ℚ` (all the
arithmetic in the matcher is small sums, products and exact divisions),
Python `set`s of lower-cased strings become `Finset String`, and the
`datetime.now()` read inside `MentorMatch` construction becomes an explicit
`now : Nat` parameter threaded into the matching functions.
-/

namespace Matching

/-- `fellow/models.py` `ResearchInterest` (only the field the matcher reads). -/
structure ResearchInterest where
  area : String
deriving DecidableEq, Repr, Inhabited

/-- `fellow/models.py` `TechnicalSkill` (only the field the matcher reads). -/
structure TechnicalSkill where
  name : String
deriving DecidableEq, Repr, Inhabited

/-- `fellow/models.py` `FellowApplication` (only the fields the matcher reads). -/
structure FellowApplication where
  programming_skills : List TechnicalSkill
  ml_skills : List TechnicalSkill
  neuro_tools : List TechnicalSkill
  research_interests : List ResearchInterest
deriving DecidableEq, Repr, Inhabited

/-- `fellow/models.py` `Fellow` (only the fields the matcher reads). -/
structure Fellow where
  id : String
  application : FellowApplication
deriving DecidableEq, Repr, Inhabited

/-- `mentor/models.py` `MentorExpertise` (only the field the matcher reads). -/
structure MentorExpertise where
  area : String
deriving DecidableEq, Repr, Inhabited

/-- `mentor/models.py` `Mentor` (only the fields the matcher reads). -/
structure Mentor where
  id : String
  name : String
  affiliation : String
  expertise_areas : List MentorExpertise
  research_keywords : List String
  max_fellows : Nat
  current_fellows : List String
  speaks_korean : Bool
  active : Bool
deriving DecidableEq, Repr, Inhabited

/-- `Mentor.available_slots`: `max(0, self.max_fellows - len(self.current_fellows))`
(truncated `Nat` subtraction is exactly `max 0 (a - b)`). -/
def Mentor.available_slots (m : Mentor) : Nat :=
  m.max_fellows - m.current_fellows.length

/-- `mentor/models.py` `MentorMatch`.  `created_at` is the
`datetime.now()` timestamp taken when the record is built. -/
structure MentorMatch where
  fellow_id : String
  mentor_id : String
  compatibility_score : ℚ
  matching_expertise : List String
  matching_interests : List String
  expertise_match_score : ℚ
  interest_match_score : ℚ
  availability_score : ℚ
  language_score : ℚ
  is_primary : Bool
  recommendation_notes : String
  created_at : Nat
deriving DecidableEq, Repr, Inhabited

/-- ASCII model of Python `str.lower()` on one character (the identifiers,
keywords and affiliations handled by the matcher are ASCII). -/
def lowerChar (c : Char) : Char :=
  if c.toNat ≥ 65 && c.toNat ≤ 90 then Char.ofNat (c.toNat + 32) else c

/-- ASCII model of Python `str.lower()`. -/
def lowerStr (s : String) : String :=
  ⟨s.data.map lowerChar⟩

/-- Python substring test `needle in hay` on lists of characters. -/
def charsContain (hay needle : List Char) : Bool :=
  needle.isPrefixOf hay ||
    match hay with
    | [] => false
    | _ :: rest => charsContain rest needle

/-- Python substring test `needle in hay` on strings. -/
def strContains (hay needle : String) : Bool :=
  charsContain hay.data needle.data

/-- The score breakdown dict built by `compute_compatibility`
(fixed key set, insertion order `interest_match, skill_match,
availability, language, career`). -/
structure ScoreBreakdown where
  interest_match : ℚ
  skill_match : ℚ
  availability : ℚ
  language : ℚ
  career : ℚ
deriving DecidableEq, Repr, Inhabited

/-- `sum(scores.values())` for the breakdown dict. -/
def ScoreBreakdown.total (s : ScoreBreakdown) : ℚ :=
  s.interest_match + s.skill_match + s.availability + s.language + s.career

/-- `set(ri.area.lower() for ri in fellow.application.research_interests)`. -/
def fellowInterestSet (fellow : Fellow) : Finset String :=
  (fellow.application.research_interests.map (fun ri => lowerStr ri.area)).toFinset

/-- `set(kw.lower() for kw in mentor.research_keywords)`. -/
def mentorKeywordSet (mentor : Mentor) : Finset String :=
  (mentor.research_keywords.map lowerStr).toFinset

/-- `set(e.area.lower() for e in mentor.expertise_areas)`. -/
def mentorExpertiseSet (mentor : Mentor) : Finset String :=
  (mentor.expertise_areas.map (fun e => lowerStr e.area)).toFinset

/-- `mentor_all = mentor_keywords | mentor_expertise`. -/
def mentorAllSet (mentor : Mentor) : Finset String :=
  mentorKeywordSet mentor ∪ mentorExpertiseSet mentor

/-- `set(s.name.lower() for s in programming_skills + ml_skills + neuro_tools)`. -/
def fellowSkillSet (fellow : Fellow) : Finset String :=
  ((fellow.application.programming_skills ++ fellow.application.ml_skills ++
      fellow.application.neuro_tools).map (fun s => lowerStr s.name)).toFinset

/-- `prestigious_affiliations` list from `compute_compatibility`. -/
def prestigious_affiliations : List String :=
  ["princeton", "mit", "stanford", "harvard", "bnl"]

/-- `MentorMatcher.compute_compatibility`: returns `(total_score, scores)`.
`self` is unused in the source, so the embedding is a plain function of the
fellow and the mentor. -/
def compute_compatibility (fellow : Fellow) (mentor : Mentor) :
    ℚ × ScoreBreakdown :=
  let mentor_all := mentorAllSet mentor
  let interest_overlap : ℚ :=
    if mentor_all.card = 0 then 0 else
      (fellowInterestSet fellow ∩ mentor_all).card / mentor_all.card
  let mentor_skills := mentorExpertiseSet mentor
  let skill_overlap : ℚ :=
    if mentor_skills.card = 0 then 0 else
      (fellowSkillSet fellow ∩ mentor_skills).card / mentor_skills.card
  let availability_score : ℚ := if mentor.available_slots > 0 then 15 else 0
  let language_score : ℚ :=
    if mentor.speaks_korean then 10
    else if mentor.research_keywords.any
        (fun kw => strContains (lowerStr kw) "korea") then 5
    else 0
  let career_score : ℚ :=
    if prestigious_affiliations.any
        (fun aff => strContains (lowerStr mentor.affiliation) aff) then 5
    else 5 / 2
  let scores : ScoreBreakdown :=
    ⟨interest_overlap * 40, skill_overlap * 30, availability_score,
      language_score, career_score⟩
  (scores.total, scores)

/-- Python dict construction `{m.id: m for m in mentors}` as one insertion:
a key keeps its first-insertion position, the value is the last one written. -/
def insertMentor (acc : List Mentor) (m : Mentor) : List Mentor :=
  if acc.any (fun x => x.id = m.id) then
    acc.map (fun x => if x.id = m.id then m else x)
  else acc ++ [m]

/-- `MentorMatcher.__init__`: `self.mentors = {m.id: m for m in mentors}`,
as an ordered association of mentors keyed by their `id`. -/
def buildMentorDict (mentors : List Mentor) : List Mentor :=
  mentors.foldl insertMentor []

/-- The `MentorMatcher` object: its `mentors` dict, in insertion order. -/
structure MentorMatcher where
  mentors : List Mentor

/-- `MentorMatcher(mentors)`. -/
def MentorMatcher.ofList (mentors : List Mentor) : MentorMatcher :=
  ⟨buildMentorDict mentors⟩

/-- The note f-string `Compatibility: {score:.1f}/100`; the one-decimal float
rendering is modelled by printing the exact rational (a fixed deterministic
function of the score, which is all any claim depends on). -/
def compatNote (score : ℚ) : String :=
  "Compatibility: " ++ toString score.num ++ "/" ++ toString score.den ++
    " out of 100"

/-- `list(fellow_interests & mentor_keywords)` inside `match_fellow`.  Python
set iteration order is unspecified; it is modelled as the fellow's lower-cased
interest list, deduplicated, filtered to the mentor's keyword set. -/
def matchingList (fellow : Fellow) (mentor : Mentor) : List String :=
  ((fellow.application.research_interests.map
      (fun ri => lowerStr ri.area)).dedup).filter
    (fun a => a ∈ mentorKeywordSet mentor)

/-- The `MentorMatch` record appended for one mentor in `match_fellow`'s loop
(`is_primary = False`, to be set later). -/
def matchRecord (now : Nat) (fellow : Fellow) (mentor : Mentor) : MentorMatch :=
  let sb := compute_compatibility fellow mentor
  let matching := matchingList fellow mentor
  ⟨fellow.id, mentor.id, sb.1, matching.take 5, matching.take 5,
    sb.2.skill_match, sb.2.interest_match, sb.2.availability, sb.2.language,
    false, compatNote sb.1, now⟩

/-- One step of a stable descending insertion sort on `compatibility_score`. -/
def insertDesc (m : MentorMatch) : List MentorMatch → List MentorMatch
  | [] => [m]
  | x :: xs =>
    if x.compatibility_score ≤ m.compatibility_score then m :: x :: xs
    else x :: insertDesc m xs

/-- `matches.sort(key=lambda m: m.compatibility_score, reverse=True)`:
a stable sort, descending on score (equal scores keep their original order,
as Python's stable sort with `reverse=True` does). -/
def sortDesc (l : List MentorMatch) : List MentorMatch :=
  l.foldr insertDesc []

/-- `if matches: matches[0].is_primary = True`. -/
def markFirstPrimary : List MentorMatch → List MentorMatch
  | [] => []
  | m :: rest => { m with is_primary := true } :: rest

/-- `MentorMatcher.match_fellow` (the `top_k` default in the source is 3;
callers pass it explicitly here). -/
def MentorMatcher.match_fellow (self : MentorMatcher) (now : Nat)
    (fellow : Fellow) (top_k : Nat) : List MentorMatch :=
  let built := (self.mentors.filter (fun m => m.active)).map
    (matchRecord now fellow)
  (markFirstPrimary (sortDesc built)).take top_k

/-- `results[key] = v` on the results dict (ordered association list with
Python dict overwrite semantics). -/
def insertResult (acc : List (String × MentorMatch)) (key : String)
    (v : MentorMatch) : List (String × MentorMatch) :=
  if acc.any (fun p => p.1 = key) then
    acc.map (fun p => if p.1 = key then (key, v) else p)
  else acc ++ [(key, v)]

/-- All ordered selections of `k` distinct elements of `xs`. -/
def injections : Nat → List Nat → List (List Nat)
  | 0, _ => [[]]
  | k + 1, xs =>
    xs.flatMap (fun x => (injections k (xs.erase x)).map (fun t => x :: t))

/-- All candidate assignments of `min n m` (row, column) pairs over an
`n × m` cost matrix, each row and each column used at most once. -/
def allAssignments (n m : Nat) : List (List (Nat × Nat)) :=
  if n ≤ m then
    (injections n (List.range m)).map (fun cs => (List.range n).zip cs)
  else
    (injections m (List.range n)).map (fun rs => rs.zip (List.range m))

/-- Total cost of an assignment. -/
def totalCost (cost : Nat → Nat → ℚ) (asn : List (Nat × Nat)) : ℚ :=
  (asn.map (fun p => cost p.1 p.2)).sum

/-- Fold keeping the first assignment of minimum total cost. -/
def chooseMin (cost : Nat → Nat → ℚ) :
    List (List (Nat × Nat)) → List (Nat × Nat) → List (Nat × Nat)
  | [], best => best
  | a :: rest, best =>
    chooseMin cost rest (if totalCost cost a < totalCost cost best then a else best)

/-- Model of `scipy.optimize.linear_sum_assignment`, the external exact
solver the source calls: over an `n × m` rectangular cost matrix it returns
an assignment of `min n m` (row, column) pairs, no row and no column used
twice, of minimum total cost (scipy guarantees a global optimum; which
optimum is returned on ties is unspecified, modelled as the first in the
enumeration). -/
def linear_sum_assignment (cost : Nat → Nat → ℚ) (n m : Nat) :
    List (Nat × Nat) :=
  match allAssignments n m with
  | [] => []
  | a :: rest => chooseMin cost rest a

/-- `MentorMatcher.match_all_fellows`: greedy per-fellow matching when
`ensure_unique=False`, otherwise the Hungarian-algorithm path over the
active mentors.  The returned dict (fellow id → primary match) is an
ordered association list. -/
def MentorMatcher.match_all_fellows (self : MentorMatcher) (now : Nat)
    (fellows : List Fellow) (ensure_unique : Bool) :
    List (String × MentorMatch) :=
  if ensure_unique = false then
    fellows.foldl (fun acc f =>
      match self.match_fellow now f 1 with
      | [] => acc
      | mm :: _ => insertResult acc f.id mm) []
  else
    let mentor_list := self.mentors.filter (fun m => m.active)
    let n_fellows := fellows.length
    let n_mentors := mentor_list.length
    let cost : Nat → Nat → ℚ := fun i j =>
      100 - (compute_compatibility (fellows.getD i default)
        (mentor_list.getD j default)).1
    let asn := linear_sum_assignment cost n_fellows n_mentors
    asn.foldl (fun acc p =>
      let fellow := fellows.getD p.1 default
      let mentor := mentor_list.getD p.2 default
      let score := 100 - cost p.1 p.2
      let breakdown := (compute_compatibility fellow mentor).2
      insertResult acc fellow.id
        ⟨fellow.id, mentor.id, score, [], [], breakdown.skill_match,
          breakdown.interest_match, breakdown.availability,
          breakdown.language, true, "Optimal match via Hungarian algorithm",
          now⟩) []

/-- Sum of the `compatibility_score` fields over a results list. -/
def resultsScoreSum (rs : List (String × MentorMatch)) : ℚ :=
  (rs.map (fun p => p.2.compatibility_score)).sum

/-- The cost-matrix entry built inside `match_all_fellows`
(`cost[i][j] = 100 - score`). -/
def costFn (self : MentorMatcher) (fellows : List Fellow) : Nat → Nat → ℚ :=
  fun i j => 100 - (compute_compatibility (fellows.getD i default)
    ((self.mentors.filter (fun m => m.active)).getD j default)).1

/-- The `MentorMatch` record built inside `match_all_fellows` for one
assignment pair. -/
def hungRecord (self : MentorMatcher) (now : Nat) (fellows : List Fellow)
    (p : Nat × Nat) : MentorMatch :=
  let fellow := fellows.getD p.1 default
  let mentor := (self.mentors.filter (fun m => m.active)).getD p.2 default
  let score := 100 - costFn self fellows p.1 p.2
  let breakdown := (compute_compatibility fellow mentor).2
  ⟨fellow.id, mentor.id, score, [], [], breakdown.skill_match,
    breakdown.interest_match, breakdown.availability, breakdown.language,
    true, "Optimal match via Hungarian algorithm", now⟩

/-- The fellow of the spec's concrete scoring scenario: interests
`{"language-brain"}`, no skills. -/
def c7F : Fellow := ⟨"F1", ⟨[], [], [], [⟨"language-brain"⟩]⟩⟩

/-- The mentor of the spec's concrete scoring scenario: keywords
`{"language-brain","memory"}`, expertise `{"fmri"}`, capacity 2, load 0,
speaks the local language, affiliation "Princeton". -/
def c7M : Mentor :=
  ⟨"M1", "Uri Hasson", "Princeton", [⟨"fmri"⟩],
    ["language-brain", "memory"], 2, [], true, true⟩

/-- The fellow of the capacity counterexample (empty profile). -/
def c2F : Fellow := ⟨"F1", ⟨[], [], [], []⟩⟩

/-- An active mentor already at capacity: `max_fellows = 1` and one
current fellow, so `currentLoad ≥ maxCapacity`. -/
def c2M : Mentor := ⟨"M1", "n", "x", [], [], 1, ["F0"], false, true⟩

/-- Overwrite the `created_at` timestamp. -/
def setTime (t : Nat) (mm : MentorMatch) : MentorMatch :=
  { mm with created_at := t }

/-- Erase the `created_at` timestamp (normalise it to 0). -/
def scrubTime (mm : MentorMatch) : MentorMatch :=
  { mm with created_at := 0 }

/-- Input for the timestamp counterexample: one active mentor. -/
def c9M : Mentor := ⟨"M1", "n", "x", [], [], 3, [], false, true⟩

/-- Fellow for the timestamp counterexample. -/
def c9F : Fellow := ⟨"F1", ⟨[], [], [], []⟩⟩

/-- First of three fellows in the 3-fellows/2-mentors scenario. -/
def c3F1 : Fellow := ⟨"F1", ⟨[], [], [], []⟩⟩

/-- Second of three fellows in the 3-fellows/2-mentors scenario. -/
def c3F2 : Fellow := ⟨"F2", ⟨[], [], [], []⟩⟩

/-- Third of three fellows in the 3-fellows/2-mentors scenario. -/
def c3F3 : Fellow := ⟨"F3", ⟨[], [], [], []⟩⟩

/-- First of two active mentors in the 3-fellows/2-mentors scenario. -/
def c3M1 : Mentor := ⟨"M1", "a", "x", [], [], 3, [], false, true⟩

/-- Second of two active mentors in the 3-fellows/2-mentors scenario. -/
def c3M2 : Mentor := ⟨"M2", "b", "x", [], [], 3, [], false, true⟩

/-- A single active mentor used by the witness instantiations. -/
def w1M : Mentor := ⟨"M1", "n", "x", [], [], 3, [], false, true⟩

/-- A single fellow used by the witness instantiations. -/
def w1F : Fellow := ⟨"F1", ⟨[], [], [], []⟩⟩

/-- An inactive mentor used by the C8 witness. -/
def c8M : Mentor := ⟨"M1", "n", "x", [], [], 3, [], false, false⟩

/-! ### Lemmas and theorems -/

lemma mem_injections_of {k : Nat} {xs l : List Nat} (hlen : l.length = k)
    (hnd : l.Nodup) (hsub : ∀ x ∈ l, x ∈ xs) : l ∈ injections k xs := by
  induction l generalizing k xs with
  | nil => subst hlen; simp [injections]
  | cons a t ih =>
    subst hlen
    simp only [injections, List.mem_flatMap, List.mem_map]
    refine ⟨a, hsub a (by simp), t, ?_, rfl⟩
    have hat : a ∉ t := (List.nodup_cons.mp hnd).1
    exact ih rfl (List.nodup_cons.mp hnd).2
      (fun x hx => (List.mem_erase_of_ne (fun hxa : x = a => hat (hxa ▸ hx))).mpr
        (hsub x (List.mem_cons_of_mem _ hx)))

lemma of_mem_injections {k : Nat} {xs l : List Nat} (hxs : xs.Nodup)
    (h : l ∈ injections k xs) :
    l.length = k ∧ l.Nodup ∧ ∀ x ∈ l, x ∈ xs := by
  induction k generalizing xs l with
  | zero => simp [injections] at h; subst h; simp
  | succ k ih =>
    simp only [injections, List.mem_flatMap, List.mem_map] at h
    obtain ⟨x, hx, t, ht, rfl⟩ := h
    obtain ⟨hl, hnd, hsub⟩ := ih (hxs.erase x) ht
    have hxt : x ∉ t := fun hmem =>
      ((List.Nodup.mem_erase_iff hxs).mp (hsub x hmem)).1 rfl
    refine ⟨by simp [hl], List.nodup_cons.mpr ⟨hxt, hnd⟩, ?_⟩
    intro y hy
    rcases List.mem_cons.mp hy with rfl | hyt
    · exact hx
    · exact List.mem_of_mem_erase (hsub y hyt)

lemma injections_ne_nil {k : Nat} {xs : List Nat} (hxs : xs.Nodup)
    (hk : k ≤ xs.length) : injections k xs ≠ [] := by
  intro hnil
  have : xs.take k ∈ injections k xs :=
    mem_injections_of (by simp [hk]) (hxs.sublist (List.take_sublist k xs))
      (fun x hx => List.mem_of_mem_take hx)
  simp [hnil] at this

lemma allAssignments_ne_nil (n m : Nat) : allAssignments n m ≠ [] := by
  unfold allAssignments
  split
  case isTrue h =>
    intro hnil
    exact injections_ne_nil (List.nodup_range _)
      (by simpa using h) (List.map_eq_nil_iff.mp hnil)
  case isFalse h =>
    intro hnil
    exact injections_ne_nil (List.nodup_range _)
      (by simp; omega) (List.map_eq_nil_iff.mp hnil)

lemma chooseMin_le (cost : Nat → Nat → ℚ) (l : List (List (Nat × Nat)))
    (best : List (Nat × Nat)) :
    totalCost cost (chooseMin cost l best) ≤ totalCost cost best ∧
      ∀ a ∈ l, totalCost cost (chooseMin cost l best) ≤ totalCost cost a := by
  induction l generalizing best with
  | nil => exact ⟨le_refl _, by simp⟩
  | cons a rest ih =>
    simp only [chooseMin]
    by_cases h : totalCost cost a < totalCost cost best
    · simp only [if_pos h]
      obtain ⟨h1, h2⟩ := ih a
      exact ⟨le_trans h1 (le_of_lt h),
        fun b hb => by
          rcases List.mem_cons.mp hb with rfl | hb
          · exact h1
          · exact h2 b hb⟩
    · simp only [if_neg h]
      obtain ⟨h1, h2⟩ := ih best
      exact ⟨h1,
        fun b hb => by
          rcases List.mem_cons.mp hb with rfl | hb
          · exact le_trans h1 (not_lt.mp h)
          · exact h2 b hb⟩

lemma chooseMin_mem (cost : Nat → Nat → ℚ) (l : List (List (Nat × Nat)))
    (best : List (Nat × Nat)) :
    chooseMin cost l best = best ∨ chooseMin cost l best ∈ l := by
  induction l generalizing best with
  | nil => exact Or.inl rfl
  | cons a rest ih =>
    simp only [chooseMin]
    by_cases h : totalCost cost a < totalCost cost best
    · simp only [if_pos h]
      rcases ih a with h1 | h1
      · exact Or.inr (by simp [h1])
      · exact Or.inr (List.mem_cons_of_mem _ h1)
    · simp only [if_neg h]
      rcases ih best with h1 | h1
      · exact Or.inl h1
      · exact Or.inr (List.mem_cons_of_mem _ h1)

lemma lsa_mem (cost : Nat → Nat → ℚ) (n m : Nat) :
    linear_sum_assignment cost n m ∈ allAssignments n m := by
  unfold linear_sum_assignment
  rcases hA : allAssignments n m with _ | ⟨a, rest⟩
  · exact absurd hA (allAssignments_ne_nil n m)
  · rcases chooseMin_mem cost rest a with h | h
    · simp [h]
    · simp [List.mem_cons_of_mem _ h]

lemma lsa_min (cost : Nat → Nat → ℚ) (n m : Nat) :
    ∀ a ∈ allAssignments n m,
      totalCost cost (linear_sum_assignment cost n m) ≤ totalCost cost a := by
  intro a ha
  unfold linear_sum_assignment
  rcases hA : allAssignments n m with _ | ⟨b, rest⟩
  · exact absurd hA (allAssignments_ne_nil n m)
  · rw [hA] at ha
    rcases List.mem_cons.mp ha with rfl | ha
    · exact (chooseMin_le cost rest a).1
    · exact (chooseMin_le cost rest b).2 a ha

lemma mem_allAssignments_le {n m : Nat} (h : n ≤ m)
    {a : List (Nat × Nat)} (ha : a ∈ allAssignments n m) :
    ∃ cs : List Nat, cs.length = n ∧ cs.Nodup ∧ (∀ j ∈ cs, j < m) ∧
      a = (List.range n).zip cs := by
  unfold allAssignments at ha
  rw [if_pos h] at ha
  obtain ⟨cs, hcs, rfl⟩ := List.mem_map.mp ha
  obtain ⟨h1, h2, h3⟩ := of_mem_injections (List.nodup_range _) hcs
  exact ⟨cs, h1, h2, fun j hj => List.mem_range.mp (h3 j hj), rfl⟩

lemma mem_allAssignments_gt {n m : Nat} (h : ¬ n ≤ m)
    {a : List (Nat × Nat)} (ha : a ∈ allAssignments n m) :
    ∃ rs : List Nat, rs.length = m ∧ rs.Nodup ∧ (∀ i ∈ rs, i < n) ∧
      a = rs.zip (List.range m) := by
  unfold allAssignments at ha
  rw [if_neg h] at ha
  obtain ⟨rs, hrs, rfl⟩ := List.mem_map.mp ha
  obtain ⟨h1, h2, h3⟩ := of_mem_injections (List.nodup_range _) hrs
  exact ⟨rs, h1, h2, fun i hi => List.mem_range.mp (h3 i hi), rfl⟩

lemma length_of_mem_allAssignments {n m : Nat} {a : List (Nat × Nat)}
    (ha : a ∈ allAssignments n m) : a.length = min n m := by
  by_cases h : n ≤ m
  · obtain ⟨cs, h1, -, -, rfl⟩ := mem_allAssignments_le h ha
    simp [h1, Nat.min_eq_left h]
  · obtain ⟨rs, h1, -, -, rfl⟩ := mem_allAssignments_gt h ha
    simp [h1, Nat.min_eq_right (le_of_not_le h)]

lemma rows_lt_of_mem_allAssignments {n m : Nat} {a : List (Nat × Nat)}
    (ha : a ∈ allAssignments n m) : ∀ p ∈ a, p.1 < n ∧ p.2 < m := by
  intro p hp
  by_cases h : n ≤ m
  · obtain ⟨cs, h1, -, h3, rfl⟩ := mem_allAssignments_le h ha
    obtain ⟨hp1, hp2⟩ := List.of_mem_zip hp
    exact ⟨List.mem_range.mp hp1, h3 _ hp2⟩
  · obtain ⟨rs, h1, -, h3, rfl⟩ := mem_allAssignments_gt h ha
    obtain ⟨hp1, hp2⟩ := List.of_mem_zip hp
    exact ⟨h3 _ hp1, List.mem_range.mp hp2⟩

lemma rows_nodup_of_mem_allAssignments {n m : Nat} {a : List (Nat × Nat)}
    (ha : a ∈ allAssignments n m) : (a.map Prod.fst).Nodup := by
  by_cases h : n ≤ m
  · obtain ⟨cs, h1, -, -, rfl⟩ := mem_allAssignments_le h ha
    rw [List.map_fst_zip _ _ (by simp [h1])]
    exact List.nodup_range _
  · obtain ⟨rs, h1, h2, -, rfl⟩ := mem_allAssignments_gt h ha
    rw [List.map_fst_zip _ _ (by simp [h1])]
    exact h2

/-- `getD` over `range` recovers the list. -/
lemma map_getD_range {α β : Type} (l : List α) (d : α) (f : α → β) :
    (List.range l.length).map (fun i => f (l.getD i d)) = l.map f := by
  induction l with
  | nil => simp
  | cons a t ih =>
    rw [List.length_cons, List.range_succ_eq_map, List.map_cons, List.map_map]
    have hcomp : List.map ((fun i => f ((a :: t).getD i d)) ∘ Nat.succ)
        (List.range t.length) = List.map f t := by
      rw [← ih]
      exact List.map_congr_left (fun i hi => by simp)
    rw [hcomp]
    simp

/-- Folding `insertResult` over fresh, pairwise-distinct keys appends. -/
lemma foldl_insertResult {α : Type} (ps : List α) (key : α → String)
    (val : α → MentorMatch) (acc : List (String × MentorMatch))
    (hnd : (ps.map key).Nodup)
    (hacc : ∀ p ∈ ps, ∀ q ∈ acc, q.1 ≠ key p) :
    ps.foldl (fun acc p => insertResult acc (key p) (val p)) acc =
      acc ++ ps.map (fun p => (key p, val p)) := by
  induction ps generalizing acc with
  | nil => simp
  | cons p rest ih =>
    simp only [List.foldl_cons]
    have hfresh : insertResult acc (key p) (val p) = acc ++ [(key p, val p)] := by
      unfold insertResult
      rw [if_neg]
      simp only [List.any_eq_true, decide_eq_true_eq, not_exists, not_and]
      intro q hq
      exact hacc p (by simp) q hq
    rw [hfresh, ih (acc ++ [(key p, val p)]) (List.nodup_cons.mp hnd).2 ?_]
    · simp
    · intro r hr q hq
      rcases List.mem_append.mp hq with hq | hq
      · exact hacc r (List.mem_cons_of_mem _ hr) q hq
      · simp only [List.mem_singleton] at hq
        subst hq
        intro hkey
        have : key p = key r := hkey
        exact (List.nodup_cons.mp hnd).1
          (this ▸ List.mem_map_of_mem key hr)

/-- Map distinct in-range indices through `getD` into a list whose image
under `f` has no duplicates: the results stay duplicate-free. -/
lemma nodup_map_getD {α β : Type} (l : List α) (d : α) (f : α → β)
    (idxs : List Nat) (hnd : idxs.Nodup)
    (hlt : ∀ i ∈ idxs, i < l.length) (hf : (l.map f).Nodup) :
    (idxs.map (fun i => f (l.getD i d))).Nodup := by
  refine List.Nodup.map_on ?_ hnd
  intro i hi j hj hij
  have hi' := hlt i hi
  have hj' := hlt j hj
  rw [List.getD_eq_getElem l d hi', List.getD_eq_getElem l d hj'] at hij
  have hinj := List.nodup_iff_injective_getElem.mp hf
  have hfe : (fun k : Fin (l.map f).length => (l.map f)[k.1]) ⟨i, by simpa using hi'⟩ =
      (fun k : Fin (l.map f).length => (l.map f)[k.1]) ⟨j, by simpa using hj'⟩ := by
    simpa using hij
  have := @hinj ⟨i, by simpa using hi'⟩ ⟨j, by simpa using hj'⟩ hfe
  simpa using this

/-- Shape of the `ensure_unique=True` result: one entry per assignment pair,
in order, provided the fellows carry pairwise-distinct ids. -/
lemma match_all_unique_eq (self : MentorMatcher) (now : Nat)
    (fellows : List Fellow) (hids : (fellows.map Fellow.id).Nodup) :
    self.match_all_fellows now fellows true =
      (linear_sum_assignment (costFn self fellows) fellows.length
          ((self.mentors.filter (fun m => m.active)).length)).map
        (fun p => ((fellows.getD p.1 default).id,
          hungRecord self now fellows p)) := by
  set asn := linear_sum_assignment (costFn self fellows) fellows.length
    ((self.mentors.filter (fun m => m.active)).length) with hasn
  have hmem := lsa_mem (costFn self fellows) fellows.length
    ((self.mentors.filter (fun m => m.active)).length)
  have hrows := rows_nodup_of_mem_allAssignments hmem
  have hlt := rows_lt_of_mem_allAssignments hmem
  have hkeys : (asn.map (fun p => (fellows.getD p.1 default).id)).Nodup := by
    have : asn.map (fun p => (fellows.getD p.1 default).id) =
        (asn.map Prod.fst).map (fun i => (fellows.getD i default).id) := by
      simp [List.map_map, Function.comp]
    rw [this]
    exact nodup_map_getD fellows default Fellow.id (asn.map Prod.fst) hrows
      (by intro i hi
          obtain ⟨p, hp, rfl⟩ := List.mem_map.mp hi
          exact (hlt p hp).1) hids
  show (if (true : Bool) = false then _ else _) = _
  rw [if_neg (by simp)]
  have := foldl_insertResult asn
    (fun p => (fellows.getD p.1 default).id)
    (fun p => hungRecord self now fellows p) [] hkeys (by simp)
  simp only [List.nil_append] at this
  exact this

lemma sum_hundred_sub (cost : Nat → Nat → ℚ) (asn : List (Nat × Nat)) :
    ((asn.map (fun p => 100 - cost p.1 p.2)).sum : ℚ) =
      100 * asn.length - totalCost cost asn := by
  induction asn with
  | nil => simp [totalCost]
  | cons p t ih =>
    simp only [List.map_cons, List.sum_cons, totalCost, List.length_cons] at ih ⊢
    push_cast
    linarith

lemma resultsScoreSum_hung (self : MentorMatcher) (now : Nat)
    (fellows : List Fellow) (asn : List (Nat × Nat)) :
    resultsScoreSum (asn.map (fun p => ((fellows.getD p.1 default).id,
        hungRecord self now fellows p))) =
      100 * asn.length - totalCost (costFn self fellows) asn := by
  rw [← sum_hundred_sub (costFn self fellows) asn]
  simp only [resultsScoreSum, List.map_map]
  rfl

/-- C1 target pairing is a candidate assignment. -/
lemma zip_range_mem_allAssignments {n m : Nat} (σ : List Nat)
    (hlen : σ.length = n) (hnd : σ.Nodup) (hlt : ∀ j ∈ σ, j < m)
    (hnm : n ≤ m) : (List.range n).zip σ ∈ allAssignments n m := by
  unfold allAssignments
  rw [if_pos hnm]
  exact List.mem_map_of_mem _
    (mem_injections_of hlen hnd (fun j hj => List.mem_range.mpr (hlt j hj)))

/-- C1: the Hungarian path of `match_all_fellows` (ensure_unique=True)
attains at least the total score of every one-to-one pairing of the fellows
with eligible mentors — in particular of any pairing obtained by resolving
per-fellow greedy top-1 choices into a one-to-one assignment. -/
theorem c1_global_optimal_dominates
    (self : MentorMatcher) (now : Nat) (fellows : List Fellow) (σ : List Nat)
    (hids : (fellows.map Fellow.id).Nodup)
    (heq : fellows.length = (self.mentors.filter (fun m => m.active)).length)
    (hσlen : σ.length = fellows.length) (hσnd : σ.Nodup)
    (hσlt : ∀ j ∈ σ, j < (self.mentors.filter (fun m => m.active)).length) :
    (((List.range fellows.length).zip σ).map (fun p =>
        (compute_compatibility (fellows.getD p.1 default)
          ((self.mentors.filter (fun m => m.active)).getD p.2 default)).1)).sum ≤
      resultsScoreSum (self.match_all_fellows now fellows true) := by
  have htarget := zip_range_mem_allAssignments σ hσlen hσnd hσlt heq.le
  have hasnmem := lsa_mem (costFn self fellows) fellows.length
    ((self.mentors.filter (fun m => m.active)).length)
  have hlen := length_of_mem_allAssignments hasnmem
  have hmin := lsa_min (costFn self fellows) fellows.length
    ((self.mentors.filter (fun m => m.active)).length) _ htarget
  rw [match_all_unique_eq self now fellows hids, resultsScoreSum_hung]
  have hLHS : (((List.range fellows.length).zip σ).map (fun p =>
      (compute_compatibility (fellows.getD p.1 default)
        ((self.mentors.filter (fun m => m.active)).getD p.2 default)).1)).sum =
      100 * ((((List.range fellows.length).zip σ).length : ℚ)) -
        totalCost (costFn self fellows) ((List.range fellows.length).zip σ) := by
    rw [← sum_hundred_sub]
    refine congrArg _ (List.map_congr_left ?_)
    intro p hp
    simp [costFn]
  rw [hLHS]
  have hzlen : ((List.range fellows.length).zip σ).length = fellows.length := by
    simp [hσlen]
  have hasnlen : (linear_sum_assignment (costFn self fellows) fellows.length
      ((self.mentors.filter (fun m => m.active)).length)).length =
        fellows.length := by
    rw [hlen, ← heq, Nat.min_self]
  rw [hzlen, hasnlen]
  linarith

lemma insertMentor_ids_nodup (acc : List Mentor) (m : Mentor)
    (h : (acc.map Mentor.id).Nodup) :
    ((insertMentor acc m).map Mentor.id).Nodup := by
  unfold insertMentor
  split
  case isTrue hcond =>
    have heq : (acc.map (fun x => if x.id = m.id then m else x)).map Mentor.id =
        acc.map Mentor.id := by
      rw [List.map_map]
      refine List.map_congr_left ?_
      intro x hx
      by_cases hxm : x.id = m.id
      · simp [Function.comp, hxm]
      · simp [Function.comp, hxm]
    rw [heq]
    exact h
  case isFalse hcond =>
    rw [List.map_append]
    rw [List.nodup_append]
    refine ⟨h, by simp, ?_⟩
    intro a ha
    obtain ⟨x, hx, rfl⟩ := List.mem_map.mp ha
    simp only [List.map_cons, List.map_nil, List.mem_singleton]
    intro hxa
    rw [List.any_eq_true] at hcond
    exact hcond ⟨x, hx, by simp [hxa]⟩

lemma buildMentorDict_ids_nodup (l : List Mentor) :
    ((buildMentorDict l).map Mentor.id).Nodup := by
  suffices h : ∀ acc : List Mentor, (acc.map Mentor.id).Nodup →
      ((l.foldl insertMentor acc).map Mentor.id).Nodup from h [] (by simp)
  induction l with
  | nil => intro acc hacc; simpa using hacc
  | cons m t ih =>
    intro acc hacc
    rw [List.foldl_cons]
    exact ih _ (insertMentor_ids_nodup acc m hacc)

lemma mem_foldl_insertMentor (t : List Mentor) (acc : List Mentor) (x : Mentor)
    (hx : x ∈ t.foldl insertMentor acc) : x ∈ acc ∨ x ∈ t := by
  induction t generalizing acc with
  | nil => exact Or.inl (by simpa using hx)
  | cons m t ih =>
    rw [List.foldl_cons] at hx
    rcases ih (insertMentor acc m) hx with h | h
    · unfold insertMentor at h
      split at h
      · obtain ⟨y, hy, hyx⟩ := List.mem_map.mp h
        by_cases hym : y.id = m.id
        · rw [if_pos hym] at hyx
          exact Or.inr (by simp [← hyx])
        · rw [if_neg hym] at hyx
          exact Or.inl (hyx ▸ hy)
      · rcases List.mem_append.mp h with h | h
        · exact Or.inl h
        · have hxm : x = m := by simpa using h
          exact Or.inr (by simp [hxm])
    · exact Or.inr (List.mem_cons_of_mem _ h)

lemma mem_buildMentorDict {l : List Mentor} {x : Mentor}
    (hx : x ∈ buildMentorDict l) : x ∈ l := by
  rcases mem_foldl_insertMentor l [] x hx with h | h
  · simp at h
  · exact h

/-- The eligible-mentor list of a matcher built from a list has
pairwise-distinct mentor ids. -/
lemma eligible_ids_nodup (mentors : List Mentor) :
    (((MentorMatcher.ofList mentors).mentors.filter
        (fun m => m.active)).map Mentor.id).Nodup := by
  have h := buildMentorDict_ids_nodup mentors
  exact h.sublist (List.Sublist.map Mentor.id (List.filter_sublist _))

/-- C4: when there are at least as many eligible mentors as fellows, the
Hungarian path assigns no mentor to two different fellows; with equal
counts, every fellow appears exactly once as a key, in order. -/
theorem c4_injective_assignment
    (mentors : List Mentor) (now : Nat) (fellows : List Fellow)
    (hids : (fellows.map Fellow.id).Nodup)
    (hle : fellows.length ≤
      ((MentorMatcher.ofList mentors).mentors.filter (fun m => m.active)).length) :
    List.Pairwise (fun a b => a.2.mentor_id ≠ b.2.mentor_id)
        ((MentorMatcher.ofList mentors).match_all_fellows now fellows true) ∧
      (fellows.length =
          ((MentorMatcher.ofList mentors).mentors.filter (fun m => m.active)).length →
        ((MentorMatcher.ofList mentors).match_all_fellows now fellows true).map
            Prod.fst = fellows.map Fellow.id) := by
  set self := MentorMatcher.ofList mentors with hself
  set ml := self.mentors.filter (fun m => m.active) with hml
  have hasnmem := lsa_mem (costFn self fellows) fellows.length ml.length
  obtain ⟨cs, hcslen, hcsnd, hcslt, hzip⟩ := mem_allAssignments_le hle hasnmem
  rw [match_all_unique_eq self now fellows hids]
  constructor
  · have hN : ((linear_sum_assignment (costFn self fellows) fellows.length
        ml.length).map (fun p => (ml.getD p.2 default).id)).Nodup := by
      rw [hzip]
      have hmap : (((List.range fellows.length).zip cs).map
          (fun p => (ml.getD p.2 default).id)) =
          cs.map (fun j => (ml.getD j default).id) := by
        have h1 : (((List.range fellows.length).zip cs).map Prod.snd).map
            (fun j => (ml.getD j default).id) =
            cs.map (fun j => (ml.getD j default).id) := by
          rw [List.map_snd_zip _ _ (by simp [hcslen])]
        rw [← h1, List.map_map]
        rfl
      rw [hmap]
      exact nodup_map_getD ml default Mentor.id cs hcsnd hcslt
        (eligible_ids_nodup mentors)
    have := List.pairwise_map.mp hN
    rw [List.pairwise_map]
    exact this
  · intro heq
    have hfst : ((linear_sum_assignment (costFn self fellows) fellows.length
        ml.length).map (fun p => ((fellows.getD p.1 default).id,
          hungRecord self now fellows p))).map Prod.fst =
        (linear_sum_assignment (costFn self fellows) fellows.length
          ml.length).map (fun p => (fellows.getD p.1 default).id) := by
      rw [List.map_map]
      rfl
    rw [hfst, hzip]
    have h3 : ((List.range fellows.length).zip cs).map
        (fun p => (fellows.getD p.1 default).id) =
        ((List.range fellows.length).zip cs).map
          ((fun i => (fellows.getD i default).id) ∘ Prod.fst) := rfl
    rw [h3, ← List.map_map, List.map_fst_zip _ _ (by simp [hcslen])]
    exact map_getD_range fellows default Fellow.id

/-- When fellows outnumber eligible mentors, the Hungarian path returns
exactly one entry per eligible mentor and at least one fellow is absent
from the returned mapping (the only trace of the uncovered fellows). -/
lemma match_all_gt (self : MentorMatcher) (now : Nat) (fellows : List Fellow)
    (hids : (fellows.map Fellow.id).Nodup)
    (hgt : (self.mentors.filter (fun m => m.active)).length < fellows.length) :
    (self.match_all_fellows now fellows true).length =
        (self.mentors.filter (fun m => m.active)).length ∧
      ∃ f ∈ fellows, ∀ e ∈ self.match_all_fellows now fellows true,
        e.1 ≠ f.id := by
  set ml := self.mentors.filter (fun m => m.active) with hml
  have hasnmem := lsa_mem (costFn self fellows) fellows.length ml.length
  have hlen := length_of_mem_allAssignments hasnmem
  have hmin : min fellows.length ml.length = ml.length :=
    Nat.min_eq_right (le_of_lt hgt)
  rw [match_all_unique_eq self now fellows hids]
  constructor
  · rw [List.length_map, hlen, hmin]
  · by_contra hno
    push_neg at hno
    have hsub : (fellows.map Fellow.id).toFinset ⊆
        ((linear_sum_assignment (costFn self fellows) fellows.length
          ml.length).map (fun p => (fellows.getD p.1 default).id)).toFinset := by
      intro a ha
      rw [List.mem_toFinset] at ha ⊢
      obtain ⟨f, hf, rfl⟩ := List.mem_map.mp ha
      obtain ⟨e, he, heq⟩ := hno f hf
      obtain ⟨p, hp, rfl⟩ := List.mem_map.mp he
      rw [← heq]
      exact List.mem_map_of_mem (fun p => (fellows.getD p.1 default).id) hp
    have hcard1 : (fellows.map Fellow.id).toFinset.card = fellows.length := by
      rw [List.toFinset_card_of_nodup hids, List.length_map]
    have hcard2 := Finset.card_le_card hsub
    have hcard3 := List.toFinset_card_le
      (l := (linear_sum_assignment (costFn self fellows) fellows.length
        ml.length).map (fun p => (fellows.getD p.1 default).id))
    rw [List.length_map, hlen, hmin] at hcard3
    omega

lemma interest_eq (fellow : Fellow) (mentor : Mentor) :
    (compute_compatibility fellow mentor).2.interest_match =
      (if (mentorAllSet mentor).card = 0 then (0 : ℚ) else
        ((fellowInterestSet fellow ∩ mentorAllSet mentor).card : ℚ) /
          (mentorAllSet mentor).card) * 40 := rfl

lemma skill_eq (fellow : Fellow) (mentor : Mentor) :
    (compute_compatibility fellow mentor).2.skill_match =
      (if (mentorExpertiseSet mentor).card = 0 then (0 : ℚ) else
        ((fellowSkillSet fellow ∩ mentorExpertiseSet mentor).card : ℚ) /
          (mentorExpertiseSet mentor).card) * 30 := rfl

lemma availability_eq (fellow : Fellow) (mentor : Mentor) :
    (compute_compatibility fellow mentor).2.availability =
      if mentor.available_slots > 0 then (15 : ℚ) else 0 := rfl

lemma language_eq (fellow : Fellow) (mentor : Mentor) :
    (compute_compatibility fellow mentor).2.language =
      if mentor.speaks_korean then (10 : ℚ)
      else if mentor.research_keywords.any
          (fun kw => strContains (lowerStr kw) "korea") then 5
      else 0 := rfl

lemma career_eq (fellow : Fellow) (mentor : Mentor) :
    (compute_compatibility fellow mentor).2.career =
      if prestigious_affiliations.any
          (fun aff => strContains (lowerStr mentor.affiliation) aff) then (5 : ℚ)
      else 5 / 2 := rfl

lemma total_eq (fellow : Fellow) (mentor : Mentor) :
    (compute_compatibility fellow mentor).1 =
      (compute_compatibility fellow mentor).2.interest_match +
      (compute_compatibility fellow mentor).2.skill_match +
      (compute_compatibility fellow mentor).2.availability +
      (compute_compatibility fellow mentor).2.language +
      (compute_compatibility fellow mentor).2.career := rfl

/-- Bounds for one overlap ratio term. -/
lemma ratio_term_bounds (a b : Finset String) (w : ℚ) (hw : 0 ≤ w) :
    0 ≤ (if b.card = 0 then (0 : ℚ) else
        ((a ∩ b).card : ℚ) / b.card) * w ∧
      (if b.card = 0 then (0 : ℚ) else
        ((a ∩ b).card : ℚ) / b.card) * w ≤ w := by
  by_cases hb : b.card = 0
  · simp [hb, hw]
  · rw [if_neg hb]
    have hbpos : (0 : ℚ) < b.card := by
      exact_mod_cast Nat.pos_of_ne_zero hb
    have hle : ((a ∩ b).card : ℚ) ≤ b.card := by
      exact_mod_cast Finset.card_le_card (Finset.inter_subset_right)
    have hr0 : 0 ≤ ((a ∩ b).card : ℚ) / b.card :=
      div_nonneg (by positivity) (le_of_lt hbpos)
    have hr1 : ((a ∩ b).card : ℚ) / b.card ≤ 1 :=
      (div_le_one hbpos).mpr hle
    constructor
    · exact mul_nonneg hr0 hw
    · calc (((a ∩ b).card : ℚ) / b.card) * w ≤ 1 * w :=
        mul_le_mul_of_nonneg_right hr1 hw
      _ = w := one_mul w

lemma interest_bounds (fellow : Fellow) (mentor : Mentor) :
    0 ≤ (compute_compatibility fellow mentor).2.interest_match ∧
      (compute_compatibility fellow mentor).2.interest_match ≤ 40 := by
  rw [interest_eq]
  exact ratio_term_bounds _ _ 40 (by norm_num)

lemma skill_bounds (fellow : Fellow) (mentor : Mentor) :
    0 ≤ (compute_compatibility fellow mentor).2.skill_match ∧
      (compute_compatibility fellow mentor).2.skill_match ≤ 30 := by
  rw [skill_eq]
  exact ratio_term_bounds _ _ 30 (by norm_num)

lemma availability_bounds (fellow : Fellow) (mentor : Mentor) :
    0 ≤ (compute_compatibility fellow mentor).2.availability ∧
      (compute_compatibility fellow mentor).2.availability ≤ 15 := by
  rw [availability_eq]
  split <;> norm_num

lemma language_bounds (fellow : Fellow) (mentor : Mentor) :
    0 ≤ (compute_compatibility fellow mentor).2.language ∧
      (compute_compatibility fellow mentor).2.language ≤ 10 := by
  rw [language_eq]
  split
  · norm_num
  · split <;> norm_num

lemma career_bounds (fellow : Fellow) (mentor : Mentor) :
    5 / 2 ≤ (compute_compatibility fellow mentor).2.career ∧
      (compute_compatibility fellow mentor).2.career ≤ 5 := by
  rw [career_eq]
  split <;> norm_num

/-- C5: the total is within `[0, 100]` and equals the sum of the five
breakdown components (the embedding is a total function: no exception). -/
theorem c5_score_bounds (fellow : Fellow) (mentor : Mentor) :
    0 ≤ (compute_compatibility fellow mentor).1 ∧
      (compute_compatibility fellow mentor).1 ≤ 100 ∧
      (compute_compatibility fellow mentor).1 =
        (compute_compatibility fellow mentor).2.interest_match +
        (compute_compatibility fellow mentor).2.skill_match +
        (compute_compatibility fellow mentor).2.availability +
        (compute_compatibility fellow mentor).2.language +
        (compute_compatibility fellow mentor).2.career := by
  obtain ⟨h1, h2⟩ := interest_bounds fellow mentor
  obtain ⟨h3, h4⟩ := skill_bounds fellow mentor
  obtain ⟨h5, h6⟩ := availability_bounds fellow mentor
  obtain ⟨h7, h8⟩ := language_bounds fellow mentor
  obtain ⟨h9, h10⟩ := career_bounds fellow mentor
  refine ⟨?_, ?_, total_eq fellow mentor⟩
  · rw [total_eq]
    linarith
  · rw [total_eq]
    linarith

/-- C6: the interest component is `40·|F ∩ (K ∪ E)| / |K ∪ E|`, and `0`
when the mentor's keyword–expertise union is empty. -/
theorem c6_interest_formula (fellow : Fellow) (mentor : Mentor) :
    (compute_compatibility fellow mentor).2.interest_match =
      if mentorAllSet mentor = ∅ then 0
      else 40 * ((fellowInterestSet fellow ∩ mentorAllSet mentor).card : ℚ) /
        (mentorAllSet mentor).card := by
  rw [interest_eq]
  by_cases h : mentorAllSet mentor = ∅
  · rw [if_pos h, if_pos (by simp [h])]
    ring
  · rw [if_neg h, if_neg (by simpa [Finset.card_eq_zero] using h)]
    ring

/-- C10: the career component is never below `2.5`, hence the total never
reaches the documented lower bound `0`. -/
theorem c10_career_floor (fellow : Fellow) (mentor : Mentor) :
    5 / 2 ≤ (compute_compatibility fellow mentor).2.career ∧
      5 / 2 ≤ (compute_compatibility fellow mentor).1 ∧
      (compute_compatibility fellow mentor).1 ≠ 0 := by
  obtain ⟨h1, h2⟩ := interest_bounds fellow mentor
  obtain ⟨h3, h4⟩ := skill_bounds fellow mentor
  obtain ⟨h5, h6⟩ := availability_bounds fellow mentor
  obtain ⟨h7, h8⟩ := language_bounds fellow mentor
  obtain ⟨h9, h10⟩ := career_bounds fellow mentor
  have htot : 5 / 2 ≤ (compute_compatibility fellow mentor).1 := by
    rw [total_eq]
    linarith
  exact ⟨h9, htot, by intro h0; rw [h0] at htot; norm_num at htot⟩

/-- C7 counterexample: on the spec's concrete scenario the interest
component is not 20 (the divisor is the 3-element union
`{"language-brain","memory","fmri"}`, not the 2-element keyword set). -/
theorem c7_counterexample :
    (compute_compatibility c7F c7M).2.interest_match ≠ 20 := by
  rw [interest_eq]
  have h1 : (mentorAllSet c7M).card = 3 := by decide
  have h2 : (fellowInterestSet c7F ∩ mentorAllSet c7M).card = 1 := by decide
  rw [h1, h2]
  norm_num

/-- C7 amended: on the concrete scenario the code computes
`interest = 40/3`, `skill = 0`, `availability = 15`, `language = 10`,
`career = 5` and `total = 130/3 ≈ 43.3`. -/
theorem c7_scenario_values :
    (compute_compatibility c7F c7M).2.interest_match = 40 / 3 ∧
      (compute_compatibility c7F c7M).2.skill_match = 0 ∧
      (compute_compatibility c7F c7M).2.availability = 15 ∧
      (compute_compatibility c7F c7M).2.language = 10 ∧
      (compute_compatibility c7F c7M).2.career = 5 ∧
      (compute_compatibility c7F c7M).1 = 130 / 3 := by
  have hi : (compute_compatibility c7F c7M).2.interest_match = 40 / 3 := by
    rw [interest_eq]
    have h1 : (mentorAllSet c7M).card = 3 := by decide
    have h2 : (fellowInterestSet c7F ∩ mentorAllSet c7M).card = 1 := by decide
    rw [h1, h2]
    norm_num
  have hs : (compute_compatibility c7F c7M).2.skill_match = 0 := by
    rw [skill_eq]
    have h1 : (mentorExpertiseSet c7M).card = 1 := by decide
    have h2 : (fellowSkillSet c7F ∩ mentorExpertiseSet c7M).card = 0 := by decide
    rw [h1, h2]
    norm_num
  have ha : (compute_compatibility c7F c7M).2.availability = 15 := by
    rw [availability_eq]
    have h1 : c7M.available_slots = 2 := by decide
    rw [h1]
    norm_num
  have hl : (compute_compatibility c7F c7M).2.language = 10 := by
    rw [language_eq]
    have h1 : c7M.speaks_korean = true := by decide
    rw [h1]
    norm_num
  have hc : (compute_compatibility c7F c7M).2.career = 5 := by
    rw [career_eq]
    have h1 : prestigious_affiliations.any
        (fun aff => strContains (lowerStr c7M.affiliation) aff) = true := by decide
    rw [h1]
    norm_num
  refine ⟨hi, hs, ha, hl, hc, ?_⟩
  rw [total_eq, hi, hs, ha, hl, hc]
  norm_num

lemma insertDesc_perm (m : MentorMatch) (l : List MentorMatch) :
    (insertDesc m l).Perm (m :: l) := by
  induction l with
  | nil => simp [insertDesc]
  | cons x xs ih =>
    unfold insertDesc
    split
    · exact List.Perm.refl _
    · exact (List.Perm.cons x ih).trans (List.Perm.swap m x xs)

lemma sortDesc_perm (l : List MentorMatch) : (sortDesc l).Perm l := by
  induction l with
  | nil => simp [sortDesc]
  | cons x xs ih =>
    unfold sortDesc
    rw [List.foldr_cons]
    exact (insertDesc_perm x _).trans (List.Perm.cons x ih)

lemma markFirstPrimary_map_mentor (l : List MentorMatch) :
    (markFirstPrimary l).map (fun x => x.mentor_id) =
      l.map (fun x => x.mentor_id) := by
  cases l <;> rfl

lemma mem_insertResult {acc : List (String × MentorMatch)} {k : String}
    {v : MentorMatch} {q : String × MentorMatch}
    (hq : q ∈ insertResult acc k v) : q ∈ acc ∨ q = (k, v) := by
  unfold insertResult at hq
  split at hq
  · obtain ⟨r, hr, hrq⟩ := List.mem_map.mp hq
    by_cases hrk : r.1 = k
    · rw [if_pos hrk] at hrq
      exact Or.inr hrq.symm
    · rw [if_neg hrk] at hrq
      exact Or.inl (hrq ▸ hr)
  · rcases List.mem_append.mp hq with h | h
    · exact Or.inl h
    · exact Or.inr (by simpa using h)

lemma foldl_preserves {α : Type} (P : String × MentorMatch → Prop)
    (step : List (String × MentorMatch) → α → List (String × MentorMatch))
    (ps : List α)
    (hstep : ∀ acc, ∀ p ∈ ps, (∀ q ∈ acc, P q) → ∀ q ∈ step acc p, P q)
    (acc : List (String × MentorMatch)) (hacc : ∀ q ∈ acc, P q) :
    ∀ q ∈ ps.foldl step acc, P q := by
  induction ps generalizing acc with
  | nil => simpa using hacc
  | cons p t ih =>
    rw [List.foldl_cons]
    exact ih (fun a r hr => hstep a r (List.mem_cons_of_mem _ hr)) _
      (hstep acc p (by simp) hacc)

/-- Every match returned by `match_fellow` names an active mentor of the
matcher's dict. -/
lemma match_fellow_active (self : MentorMatcher) (now : Nat) (fellow : Fellow)
    (k : Nat) : ∀ mm ∈ self.match_fellow now fellow k,
      ∃ m ∈ self.mentors, m.active = true ∧ mm.mentor_id = m.id := by
  intro mm hmm
  simp only [MentorMatcher.match_fellow] at hmm
  have h1 := List.mem_of_mem_take hmm
  have h2 : mm.mentor_id ∈ (markFirstPrimary (sortDesc
      ((self.mentors.filter (fun m => m.active)).map
        (matchRecord now fellow)))).map (fun x => x.mentor_id) :=
    List.mem_map_of_mem _ h1
  rw [markFirstPrimary_map_mentor] at h2
  have h3 : mm.mentor_id ∈ ((self.mentors.filter (fun m => m.active)).map
      (matchRecord now fellow)).map (fun x => x.mentor_id) :=
    ((sortDesc_perm _).map _).mem_iff.mp h2
  rw [List.map_map] at h3
  obtain ⟨m, hm, hmid⟩ := List.mem_map.mp h3
  exact ⟨m, List.mem_of_mem_filter hm,
    by simpa using List.of_mem_filter hm, hmid.symm⟩

/-- C2 amended: in every mode no inactive mentor ever appears as the
mentor of a returned match (mentors at or over capacity are not filtered
out; they can appear, carrying availability score 0 — see the
counterexample). -/
theorem c2_active_only (self : MentorMatcher) (now : Nat) (fellow : Fellow)
    (k : Nat) (fellows : List Fellow) :
    (∀ mm ∈ self.match_fellow now fellow k,
        ∃ m ∈ self.mentors, m.active = true ∧ mm.mentor_id = m.id) ∧
      (∀ e ∈ self.match_all_fellows now fellows true,
        ∃ m ∈ self.mentors, m.active = true ∧ e.2.mentor_id = m.id) ∧
      (∀ e ∈ self.match_all_fellows now fellows false,
        ∃ m ∈ self.mentors, m.active = true ∧ e.2.mentor_id = m.id) := by
  refine ⟨match_fellow_active self now fellow k, ?_, ?_⟩
  · intro e he
    show ∃ m ∈ self.mentors, m.active = true ∧ e.2.mentor_id = m.id
    have hasnmem := lsa_mem (costFn self fellows) fellows.length
      ((self.mentors.filter (fun m => m.active)).length)
    have hlt := rows_lt_of_mem_allAssignments hasnmem
    revert e he
    show ∀ e ∈ self.match_all_fellows now fellows true, _
    simp only [MentorMatcher.match_all_fellows]
    rw [if_neg (by simp)]
    refine foldl_preserves _ _ _ ?_ [] (by simp)
    intro acc p hp hacc q hq
    rcases mem_insertResult hq with h | h
    · exact hacc q h
    · subst h
      have hp2 := (hlt p hp).2
      refine ⟨(self.mentors.filter (fun m => m.active)).getD p.2 default,
        ?_, ?_, rfl⟩
      · rw [List.getD_eq_getElem _ _ hp2]
        exact List.mem_of_mem_filter (List.getElem_mem hp2)
      · rw [List.getD_eq_getElem _ _ hp2]
        simpa using List.of_mem_filter (List.getElem_mem hp2)
  · show ∀ e ∈ self.match_all_fellows now fellows false, _
    simp only [MentorMatcher.match_all_fellows]
    rw [if_pos trivial]
    refine foldl_preserves _ _ _ ?_ [] (by simp)
    intro acc f hf hacc q hq
    rcases hl : self.match_fellow now f 1 with _ | ⟨mm, rest⟩
    · rw [hl] at hq
      exact hacc q hq
    · rw [hl] at hq
      rcases mem_insertResult hq with h | h
      · exact hacc q h
      · subst h
        obtain ⟨m, hm, hact, hid⟩ := match_fellow_active self now f 1 mm
          (by rw [hl]; exact List.mem_cons_self mm rest)
        exact ⟨m, hm, hact, hid⟩

/-- C2 counterexample: the mentor at capacity (load 1 ≥ capacity 1) is
returned by `match_fellow` as a match target. -/
theorem c2_counterexample :
    ((MentorMatcher.ofList [c2M]).match_fellow 0 c2F 3).map
        (fun mm => mm.mentor_id) = ["M1"] ∧
      c2M.max_fellows ≤ c2M.current_fellows.length ∧ c2M.active = true := by
  refine ⟨?_, by decide, by decide⟩
  decide

lemma allAssignments_zero_cols (n : Nat) : allAssignments n 0 = [[]] := by
  unfold allAssignments
  split
  case isTrue h =>
    have hn : n = 0 := Nat.le_zero.mp h
    subst hn
    simp [injections]
  case isFalse h =>
    simp [injections]

lemma lsa_zero_cols (cost : Nat → Nat → ℚ) (n : Nat) :
    linear_sum_assignment cost n 0 = [] := by
  unfold linear_sum_assignment
  rw [allAssignments_zero_cols]
  rfl

/-- C8: with an empty mentor pool, or a pool whose every mentor is
inactive, both modes return empty results (and the embedding is total:
no exception). -/
theorem c8_inactive_pool_empty (mentors : List Mentor) (now : Nat)
    (fellow : Fellow) (k : Nat) (fellows : List Fellow)
    (h : ∀ m ∈ mentors, m.active = false) :
    (MentorMatcher.ofList mentors).match_fellow now fellow k = [] ∧
      (MentorMatcher.ofList mentors).match_all_fellows now fellows true = [] ∧
      (MentorMatcher.ofList mentors).match_all_fellows now fellows false = [] := by
  have hfilt : (MentorMatcher.ofList mentors).mentors.filter
      (fun m => m.active) = [] := by
    rw [List.filter_eq_nil_iff]
    intro m hm
    simp [h m (mem_buildMentorDict hm)]
  have h1 : ∀ (t : Nat) (f : Fellow) (k' : Nat),
      (MentorMatcher.ofList mentors).match_fellow t f k' = [] := by
    intro t f k'
    simp only [MentorMatcher.match_fellow, hfilt]
    simp [sortDesc, markFirstPrimary]
  refine ⟨h1 now fellow k, ?_, ?_⟩
  · simp only [MentorMatcher.match_all_fellows]
    rw [if_neg (by simp), hfilt]
    rw [show ([] : List Mentor).length = 0 from rfl, lsa_zero_cols]
    rfl
  · simp only [MentorMatcher.match_all_fellows]
    rw [if_pos trivial]
    have hfold : ∀ acc : List (String × MentorMatch),
        fellows.foldl (fun acc f =>
          match (MentorMatcher.ofList mentors).match_fellow now f 1 with
          | [] => acc
          | mm :: _ => insertResult acc f.id mm) acc = acc := by
      induction fellows with
      | nil => intro acc; rfl
      | cons f t ih =>
        intro acc
        rw [List.foldl_cons, h1 now f 1]
        exact ih acc
    exact hfold []

lemma insertDesc_map_setTime (t : Nat) (m : MentorMatch)
    (l : List MentorMatch) :
    insertDesc (setTime t m) (l.map (setTime t)) =
      (insertDesc m l).map (setTime t) := by
  induction l with
  | nil => rfl
  | cons x xs ih =>
    simp only [List.map_cons]
    unfold insertDesc
    have hsc : (setTime t x).compatibility_score = x.compatibility_score := rfl
    have hsm : (setTime t m).compatibility_score = m.compatibility_score := rfl
    rw [hsc, hsm]
    by_cases hc : x.compatibility_score ≤ m.compatibility_score
    · rw [if_pos hc, if_pos hc]
      simp
    · rw [if_neg hc, if_neg hc]
      rw [List.map_cons, ih]

lemma sortDesc_map_setTime (t : Nat) (l : List MentorMatch) :
    sortDesc (l.map (setTime t)) = (sortDesc l).map (setTime t) := by
  induction l with
  | nil => rfl
  | cons x xs ih =>
    simp only [List.map_cons, sortDesc, List.foldr_cons]
    show insertDesc (setTime t x) (sortDesc (xs.map (setTime t))) = _
    rw [ih]
    exact insertDesc_map_setTime t x (sortDesc xs)

lemma markFirstPrimary_map_setTime (t : Nat) (l : List MentorMatch) :
    markFirstPrimary (l.map (setTime t)) =
      (markFirstPrimary l).map (setTime t) := by
  cases l <;> rfl

lemma match_fellow_setTime (self : MentorMatcher) (now : Nat)
    (fellow : Fellow) (k : Nat) :
    self.match_fellow now fellow k =
      (self.match_fellow 0 fellow k).map (setTime now) := by
  simp only [MentorMatcher.match_fellow]
  have hbuilt : (self.mentors.filter (fun m => m.active)).map
      (matchRecord now fellow) =
      ((self.mentors.filter (fun m => m.active)).map
        (matchRecord 0 fellow)).map (setTime now) := by
    rw [List.map_map]
    rfl
  rw [hbuilt, sortDesc_map_setTime, markFirstPrimary_map_setTime,
    List.map_take]

lemma insertResult_map_setTime (t : Nat) (acc : List (String × MentorMatch))
    (k : String) (v : MentorMatch) :
    insertResult (acc.map (fun e => (e.1, setTime t e.2))) k (setTime t v) =
      (insertResult acc k v).map (fun e => (e.1, setTime t e.2)) := by
  unfold insertResult
  have hany : (acc.map (fun e => (e.1, setTime t e.2))).any
      (fun p => p.1 = k) = acc.any (fun p => p.1 = k) := by
    rw [List.any_map]
    rfl
  rw [hany]
  split
  · rw [List.map_map, List.map_map]
    refine List.map_congr_left ?_
    intro e he
    by_cases hek : e.1 = k
    · simp [Function.comp, hek]
    · simp [Function.comp, hek]
  · simp

lemma foldl_map_comm {α : Type} (g : String × MentorMatch → String × MentorMatch)
    (step1 step2 : List (String × MentorMatch) → α → List (String × MentorMatch))
    (hcomm : ∀ acc p, step1 (acc.map g) p = (step2 acc p).map g)
    (ps : List α) (acc : List (String × MentorMatch)) :
    ps.foldl step1 (acc.map g) = (ps.foldl step2 acc).map g := by
  induction ps generalizing acc with
  | nil => simp
  | cons p t ih =>
    rw [List.foldl_cons, List.foldl_cons, hcomm, ih]

lemma match_all_setTime (self : MentorMatcher) (now : Nat)
    (fellows : List Fellow) (b : Bool) :
    self.match_all_fellows now fellows b =
      (self.match_all_fellows 0 fellows b).map
        (fun e => (e.1, setTime now e.2)) := by
  cases b
  case false =>
    simp only [MentorMatcher.match_all_fellows]
    rw [if_pos trivial, if_pos trivial]
    have := foldl_map_comm (fun e => (e.1, setTime now e.2))
      (fun acc f =>
        match self.match_fellow now f 1 with
        | [] => acc
        | mm :: _ => insertResult acc f.id mm)
      (fun acc f =>
        match self.match_fellow 0 f 1 with
        | [] => acc
        | mm :: _ => insertResult acc f.id mm)
      ?_ fellows []
    · simpa using this
    · intro acc f
      show (match self.match_fellow now f 1 with
        | [] => acc.map (fun e : String × MentorMatch => (e.1, setTime now e.2))
        | mm :: _ =>
          insertResult (acc.map
            (fun e : String × MentorMatch => (e.1, setTime now e.2))) f.id mm) =
        ((match self.match_fellow 0 f 1 with
          | [] => acc
          | mm :: _ => insertResult acc f.id mm).map
            (fun e : String × MentorMatch => (e.1, setTime now e.2)))
      rw [match_fellow_setTime self now f 1]
      cases hm : self.match_fellow 0 f 1 with
      | nil => rfl
      | cons mm rest => exact insertResult_map_setTime now acc f.id mm
  case true =>
    simp only [MentorMatcher.match_all_fellows]
    rw [if_neg (by simp), if_neg (by simp)]
    have := foldl_map_comm (fun e => (e.1, setTime now e.2))
      (fun acc p =>
        insertResult acc (fellows.getD p.1 default).id
          (setTime now (hungRecord self 0 fellows p)))
      (fun acc p =>
        insertResult acc (fellows.getD p.1 default).id
          (hungRecord self 0 fellows p))
      (fun acc p => insertResult_map_setTime now acc
        (fellows.getD p.1 default).id (hungRecord self 0 fellows p))
      (linear_sum_assignment (costFn self fellows) fellows.length
        ((self.mentors.filter (fun m => m.active)).length)) []
    exact this

/-- C9 amended: with the creation timestamp erased, any two runs of the
same mode on the same inputs agree field-for-field; `created_at` records
the wall clock and is the only field that can differ. -/
theorem c9_deterministic_up_to_timestamp (self : MentorMatcher)
    (t1 t2 : Nat) (fellow : Fellow) (k : Nat) (fellows : List Fellow)
    (b : Bool) :
    (self.match_fellow t1 fellow k).map scrubTime =
        (self.match_fellow t2 fellow k).map scrubTime ∧
      (self.match_all_fellows t1 fellows b).map
          (fun e => (e.1, scrubTime e.2)) =
        (self.match_all_fellows t2 fellows b).map
          (fun e => (e.1, scrubTime e.2)) := by
  constructor
  · rw [match_fellow_setTime self t1, match_fellow_setTime self t2,
      List.map_map, List.map_map]
    rfl
  · rw [match_all_setTime self t1, match_all_setTime self t2,
      List.map_map, List.map_map]
    rfl

/-- C9 counterexample: two runs of `match_fellow` on identical inputs at
different wall-clock instants differ (in the `created_at` field), so the
output is not byte-identical across runs. -/
theorem c9_counterexample :
    (MentorMatcher.ofList [c9M]).match_fellow 0 c9F 1 ≠
      (MentorMatcher.ofList [c9M]).match_fellow 1 c9F 1 := by
  intro h
  have h0 : ((MentorMatcher.ofList [c9M]).match_fellow 0 c9F 1).map
      (fun mm => mm.created_at) = [0] := by decide
  have h1 : ((MentorMatcher.ofList [c9M]).match_fellow 1 c9F 1).map
      (fun mm => mm.created_at) = [1] := by decide
  rw [h] at h0
  rw [h0] at h1
  exact absurd h1 (by decide)

/-- C3: with 3 fellows and 2 eligible mentors, `match_all_fellows`
(global-optimal) returns a mapping with exactly 2 entries and one fellow
absent from it; the function's return value carries no explicit
unmatched-fellow list (its type is only the fellow-id → match mapping), so
the uncovered fellow is reported nowhere beyond a log warning. -/
theorem c3_nonsquare_behavior :
    ((MentorMatcher.ofList [c3M1, c3M2]).match_all_fellows 0
        [c3F1, c3F2, c3F3] true).length = 2 ∧
      ∃ f ∈ [c3F1, c3F2, c3F3],
        ∀ e ∈ (MentorMatcher.ofList [c3M1, c3M2]).match_all_fellows 0
          [c3F1, c3F2, c3F3] true, e.1 ≠ f.id := by
  have h := match_all_gt (MentorMatcher.ofList [c3M1, c3M2]) 0
    [c3F1, c3F2, c3F3] (by decide) (by decide)
  have hlen : ((MentorMatcher.ofList [c3M1, c3M2]).mentors.filter
      (fun m => m.active)).length = 2 := by decide
  rw [hlen] at h
  exact h

theorem c1_witness :
    (((List.range [w1F].length).zip [0]).map (fun p =>
        (compute_compatibility ([w1F].getD p.1 default)
          (((MentorMatcher.ofList [w1M]).mentors.filter
            (fun m => m.active)).getD p.2 default)).1)).sum ≤
      resultsScoreSum
        ((MentorMatcher.ofList [w1M]).match_all_fellows 0 [w1F] true) :=
  c1_global_optimal_dominates (MentorMatcher.ofList [w1M]) 0 [w1F] [0]
    (by decide) (by decide) (by decide) (by decide) (by decide)

theorem c4_witness :
    List.Pairwise (fun a b => a.2.mentor_id ≠ b.2.mentor_id)
        ((MentorMatcher.ofList [w1M]).match_all_fellows 0 [w1F] true) ∧
      ([w1F].length = ((MentorMatcher.ofList [w1M]).mentors.filter
          (fun m => m.active)).length →
        ((MentorMatcher.ofList [w1M]).match_all_fellows 0 [w1F] true).map
          Prod.fst = [w1F].map Fellow.id) :=
  c4_injective_assignment [w1M] 0 [w1F] (by decide) (by decide)

theorem c2_witness :
    ∃ m ∈ (MentorMatcher.ofList [w1M]).mentors, m.active = true ∧
      (((MentorMatcher.ofList [w1M]).match_fellow 0 w1F 3).headI).mentor_id =
        m.id := by
  have hmem : ((MentorMatcher.ofList [w1M]).match_fellow 0 w1F 3).headI ∈
      (MentorMatcher.ofList [w1M]).match_fellow 0 w1F 3 := by
    cases hm : (MentorMatcher.ofList [w1M]).match_fellow 0 w1F 3 with
    | nil =>
      have hl : ((MentorMatcher.ofList [w1M]).match_fellow 0 w1F 3).length =
          1 := by decide
      rw [hm] at hl
      exact absurd hl (by decide)
    | cons a t => simp
  exact (c2_active_only (MentorMatcher.ofList [w1M]) 0 w1F 3 []).1 _ hmem

theorem c8_witness :
    (∀ m ∈ [c8M], m.active = false) ∧
      ((MentorMatcher.ofList [c8M]).match_fellow 0 w1F 3 = [] ∧
        (MentorMatcher.ofList [c8M]).match_all_fellows 0 [w1F] true = [] ∧
        (MentorMatcher.ofList [c8M]).match_all_fellows 0 [w1F] false = []) :=
  ⟨by decide, c8_inactive_pool_empty [c8M] 0 w1F 3 [w1F] (by decide)⟩

end Matching
